import Mathlib

/-!
Verification of the MCMC core of a spin-glass sampler.

The development shallowly embeds the numeric kernels and chain drivers of
the repository (files `src/utils/utils.py` and `src/utils/montecarlo.py`).
Spin configurations are total functions `ℕ → ℚ` (idealised exact
arithmetic for the float arrays of the source); the sparse couplings table
is given by a neighbour-index matrix, a coupling matrix and a per-row true
degree, exactly as produced by `get_couplings`.  Values that the source
obtains from the neural oracles and that may be non-finite (NaN or ±∞)
are modelled as `Option ℚ`, `none` standing for a non-finite float.
Quantities the source computes by pure arithmetic from finite inputs are
always finite in exact arithmetic, so the corresponding `np.isfinite`
guards of the source are identically true and elided.  The transcendental
primitives `np.exp` and `np.log` are abstracted as function parameters
`qexp`/`qlog`; no property of theirs is assumed anywhere.
-/

namespace NeuralMCMC

/-- Embedding of `compute_energy` (utils.py, lines 222-233):
`energy = Σ_{i<n} Σ_{j<len_neighbours[i]} sample[i]·(sample[neighbours[i,j]]·couplings[i,j])`,
returned divided by 2.  `n` is `neighbours.shape[0]`. -/
def compute_energy (sample : ℕ → ℚ) (neighbours : ℕ → ℕ → ℕ) (couplings : ℕ → ℕ → ℚ)
    (len_neighbours : ℕ → ℕ) (n : ℕ) : ℚ :=
  (∑ i ∈ Finset.range n, ∑ j ∈ Finset.range (len_neighbours i),
    sample i * (sample (neighbours i j) * couplings i j)) / 2

/-- Embedding of `compute_delta_h` (utils.py, lines 236-247): receives the
row of the flipped site (`neighbours[k]`, `couplings[k]`, `len_neighbours[k]`)
and returns `2 · Σ_{j<len} (−sample[k]) · (sample[neighbours[j]] · couplings[j])`. -/
def compute_delta_h (num_spin : ℕ) (sample : ℕ → ℚ) (neighbours : ℕ → ℕ)
    (couplings : ℕ → ℚ) (len_neighbours : ℕ) : ℚ :=
  2 * ∑ j ∈ Finset.range len_neighbours,
    -(sample num_spin) * (sample (neighbours j) * couplings j)

/-- The formula the specification gives for `delta_h`:
`2 · s[k] · Σ_{j<deg[k]} s[neighbours[k][j]] · couplings[k][j]`
(note the sign: the source accumulates `−sample[k]·…`). -/
def spec_delta_h (num_spin : ℕ) (sample : ℕ → ℚ) (neighbours : ℕ → ℕ)
    (couplings : ℕ → ℚ) (len_neighbours : ℕ) : ℚ :=
  2 * sample num_spin * ∑ j ∈ Finset.range len_neighbours,
    sample (neighbours j) * couplings j

/-- Flipping spin `k`: the in-place update `sample[k] = -sample[k]`. -/
def flipSpin (s : ℕ → ℚ) (k : ℕ) : ℕ → ℚ :=
  Function.update s k (-(s k))

/-- Total coupling weight carried by the entries of row `i` that point at
site `m`.  The symmetry invariant of the couplings table is stated with it. -/
def wgt (neighbours : ℕ → ℕ → ℕ) (couplings : ℕ → ℕ → ℚ) (len_neighbours : ℕ → ℕ)
    (i m : ℕ) : ℚ :=
  ∑ j ∈ Finset.range (len_neighbours i), if neighbours i j = m then couplings i j else 0

lemma flipSpin_self (s : ℕ → ℚ) (k : ℕ) : flipSpin s k k = -(s k) := by
  simp [flipSpin]

lemma flipSpin_other (s : ℕ → ℚ) {k i : ℕ} (h : i ≠ k) : flipSpin s k i = s i := by
  simp [flipSpin, Function.update_apply, h]

/-- Regrouping the weighted neighbour sum of row `k` by target site. -/
lemma row_sum_regroup (s : ℕ → ℚ) (neighbours : ℕ → ℕ → ℕ) (couplings : ℕ → ℕ → ℚ)
    (len_neighbours : ℕ → ℕ) (n k : ℕ)
    (hrange : ∀ j, j < len_neighbours k → neighbours k j < n) :
    ∑ m ∈ Finset.range n, s m * wgt neighbours couplings len_neighbours k m
      = ∑ j ∈ Finset.range (len_neighbours k), s (neighbours k j) * couplings k j := by
  unfold wgt
  calc ∑ m ∈ Finset.range n,
        s m * ∑ j ∈ Finset.range (len_neighbours k),
          (if neighbours k j = m then couplings k j else 0)
      = ∑ m ∈ Finset.range n, ∑ j ∈ Finset.range (len_neighbours k),
          (if neighbours k j = m then s m * couplings k j else 0) := by
        refine Finset.sum_congr rfl ?_
        intro m _
        rw [Finset.mul_sum]
        refine Finset.sum_congr rfl ?_
        intro j _
        by_cases h : neighbours k j = m <;> simp [h]
    _ = ∑ j ∈ Finset.range (len_neighbours k), ∑ m ∈ Finset.range n,
          (if neighbours k j = m then s m * couplings k j else 0) :=
        Finset.sum_comm
    _ = ∑ j ∈ Finset.range (len_neighbours k), s (neighbours k j) * couplings k j := by
        refine Finset.sum_congr rfl ?_
        intro j hj
        rw [Finset.mem_range] at hj
        rw [Finset.sum_ite_eq]
        simp [hrange j hj]

/-- Core ΔH lemma: for a couplings table that is symmetric (`hsym`), has no
self-loop weight on the flipped row (`hself`) and whose row `k` points
inside the lattice (`hrangek`), the value returned by `compute_delta_h`
is exactly the change of `compute_energy` caused by flipping spin `k`. -/
lemma energy_flip_sub_energy (s : ℕ → ℚ) (neighbours : ℕ → ℕ → ℕ)
    (couplings : ℕ → ℕ → ℚ) (len_neighbours : ℕ → ℕ) (n k : ℕ)
    (hk : k < n)
    (hrangek : ∀ j, j < len_neighbours k → neighbours k j < n)
    (hsym : ∀ i, i < n → ∀ m, m < n →
      wgt neighbours couplings len_neighbours i m
        = wgt neighbours couplings len_neighbours m i)
    (hself : wgt neighbours couplings len_neighbours k k = 0) :
    compute_energy (flipSpin s k) neighbours couplings len_neighbours n
      - compute_energy s neighbours couplings len_neighbours n
      = compute_delta_h k s (neighbours k) (couplings k) (len_neighbours k) := by
  set T : ℚ := ∑ j ∈ Finset.range (len_neighbours k), s (neighbours k j) * couplings k j
    with hT
  have hdh : compute_delta_h k s (neighbours k) (couplings k) (len_neighbours k)
      = -2 * (s k * T) := by
    unfold compute_delta_h
    rw [← Finset.mul_sum, hT]
    ring
  -- per-row difference of the two energy double sums, flipped row
  have hrowk :
      (∑ j ∈ Finset.range (len_neighbours k),
          flipSpin s k k * (flipSpin s k (neighbours k j) * couplings k j))
        - ∑ j ∈ Finset.range (len_neighbours k),
            s k * (s (neighbours k j) * couplings k j)
      = -2 * (s k * T) := by
    rw [← Finset.sum_sub_distrib]
    have hsplit :
        ∀ j ∈ Finset.range (len_neighbours k),
          flipSpin s k k * (flipSpin s k (neighbours k j) * couplings k j)
            - s k * (s (neighbours k j) * couplings k j)
          = -2 * (s k * (s (neighbours k j) * couplings k j))
            + 2 * s k * s k * (if neighbours k j = k then couplings k j else 0) := by
      intro j _
      rw [flipSpin_self]
      by_cases h : neighbours k j = k
      · rw [if_pos h, h, flipSpin_self]
        ring
      · rw [if_neg h, flipSpin_other s h]
        ring
    rw [Finset.sum_congr rfl hsplit, Finset.sum_add_distrib]
    have h1 : ∑ j ∈ Finset.range (len_neighbours k),
        -2 * (s k * (s (neighbours k j) * couplings k j)) = -2 * (s k * T) := by
      rw [← Finset.mul_sum, ← Finset.mul_sum, hT]
    have h2 : ∑ j ∈ Finset.range (len_neighbours k),
        2 * s k * s k * (if neighbours k j = k then couplings k j else 0) = 0 := by
      rw [← Finset.mul_sum]
      have hz : ∑ j ∈ Finset.range (len_neighbours k),
          (if neighbours k j = k then couplings k j else 0) = 0 := hself
      rw [hz, mul_zero]
    rw [h1, h2, add_zero]
  -- per-row difference, other rows
  have hrowi : ∀ i ∈ Finset.range n \ {k},
      (∑ j ∈ Finset.range (len_neighbours i),
          flipSpin s k i * (flipSpin s k (neighbours i j) * couplings i j))
        - ∑ j ∈ Finset.range (len_neighbours i),
            s i * (s (neighbours i j) * couplings i j)
      = -2 * s k * (s i * wgt neighbours couplings len_neighbours i k) := by
    intro i hi
    rw [Finset.mem_sdiff, Finset.mem_singleton] at hi
    rw [← Finset.sum_sub_distrib]
    have hterm : ∀ j ∈ Finset.range (len_neighbours i),
        flipSpin s k i * (flipSpin s k (neighbours i j) * couplings i j)
          - s i * (s (neighbours i j) * couplings i j)
        = -2 * s k * (s i * (if neighbours i j = k then couplings i j else 0)) := by
      intro j _
      rw [flipSpin_other s hi.2]
      by_cases h : neighbours i j = k
      · rw [if_pos h, h, flipSpin_self]
        ring
      · rw [if_neg h, flipSpin_other s h]
        ring
    rw [Finset.sum_congr rfl hterm]
    unfold wgt
    rw [Finset.mul_sum, Finset.mul_sum]
  -- the off-row total is again −2·s k·T
  have hoff : ∑ i ∈ Finset.range n \ {k},
      ((∑ j ∈ Finset.range (len_neighbours i),
          flipSpin s k i * (flipSpin s k (neighbours i j) * couplings i j))
        - ∑ j ∈ Finset.range (len_neighbours i),
            s i * (s (neighbours i j) * couplings i j))
      = -2 * (s k * T) := by
    rw [Finset.sum_congr rfl hrowi]
    have hsymsum : ∑ i ∈ Finset.range n \ {k},
        -2 * s k * (s i * wgt neighbours couplings len_neighbours i k)
        = ∑ i ∈ Finset.range n \ {k},
            -2 * s k * (s i * wgt neighbours couplings len_neighbours k i) := by
      refine Finset.sum_congr rfl ?_
      intro i hi
      rw [Finset.mem_sdiff, Finset.mem_range] at hi
      rw [hsym i hi.1 k hk]
    rw [hsymsum]
    have hTsum : ∑ i ∈ Finset.range n \ {k},
        s i * wgt neighbours couplings len_neighbours k i = T := by
      have hfull := row_sum_regroup s neighbours couplings len_neighbours n k hrangek
      have hsplitk : ∑ m ∈ Finset.range n,
          s m * wgt neighbours couplings len_neighbours k m
          = (∑ m ∈ Finset.range n \ {k},
              s m * wgt neighbours couplings len_neighbours k m)
            + s k * wgt neighbours couplings len_neighbours k k :=
        Finset.sum_eq_sum_diff_singleton_add (Finset.mem_range.mpr hk) _
      rw [hsplitk, hself, mul_zero, add_zero] at hfull
      rw [hT]
      exact hfull
    rw [← Finset.mul_sum, hTsum]
    ring
  unfold compute_energy
  rw [div_sub_div_same, ← Finset.sum_sub_distrib]
  rw [Finset.sum_eq_sum_diff_singleton_add (Finset.mem_range.mpr hk)
    (fun i => (∑ j ∈ Finset.range (len_neighbours i),
        flipSpin s k i * (flipSpin s k (neighbours i j) * couplings i j))
      - ∑ j ∈ Finset.range (len_neighbours i),
          s i * (s (neighbours i j) * couplings i j))]
  rw [hoff, hrowk, hdh]
  ring

/-- C1.  For every configuration `s` and site `k < n`, with a symmetric
couplings table (padded zero entries lying beyond the true degree, no
self-loop weight on row `k`, row `k` pointing inside the lattice), the
energy change caused by flipping spin `k` equals the value returned by
the incremental kernel:
`compute_energy(flip(s,k)) − compute_energy(s) = compute_delta_h(k, s, neighbours[k], couplings[k], deg[k])`,
exactly in rational arithmetic. -/
theorem delta_h_matches_energy_change (s : ℕ → ℚ) (neighbours : ℕ → ℕ → ℕ)
    (couplings : ℕ → ℕ → ℚ) (len_neighbours : ℕ → ℕ) (n k : ℕ)
    (hk : k < n)
    (hrangek : ∀ j, j < len_neighbours k → neighbours k j < n)
    (hsym : ∀ i, i < n → ∀ m, m < n →
      wgt neighbours couplings len_neighbours i m
        = wgt neighbours couplings len_neighbours m i)
    (hself : wgt neighbours couplings len_neighbours k k = 0) :
    compute_energy (flipSpin s k) neighbours couplings len_neighbours n
      - compute_energy s neighbours couplings len_neighbours n
      = compute_delta_h k s (neighbours k) (couplings k) (len_neighbours k) :=
  energy_flip_sub_energy s neighbours couplings len_neighbours n k hk hrangek hsym hself

/-- Witness for C1: the 2-site chain with unit coupling, `s = (1, −1)`,
flipping site 0.  Energy goes from −1 to 1 and `compute_delta_h` returns 2. -/
theorem delta_h_matches_energy_change_checked :
    (0 < 2 ∧ (∀ j, j < 1 → (fun (_ : ℕ) (_ : ℕ) => 1 - (0:ℕ)) 0 j < 2)) ∧
    compute_energy
        (flipSpin (fun i => if i = 0 then (1:ℚ) else -1) 0)
        (fun i _ => 1 - i) (fun _ _ => (1:ℚ)) (fun _ => 1) 2
      - compute_energy (fun i => if i = 0 then (1:ℚ) else -1)
          (fun i _ => 1 - i) (fun _ _ => (1:ℚ)) (fun _ => 1) 2
      = compute_delta_h 0 (fun i => if i = 0 then (1:ℚ) else -1)
          ((fun (i : ℕ) (_ : ℕ) => 1 - i) 0) ((fun _ _ => (1:ℚ)) 0)
          ((fun _ => 1) 0) :=
  ⟨⟨by decide, by decide⟩,
    delta_h_matches_energy_change (fun i => if i = 0 then (1:ℚ) else -1)
      (fun i _ => 1 - i) (fun _ _ => (1:ℚ)) (fun _ => 1) 2 0
      (by decide) (by decide)
      (by
        intro i hi m hm
        interval_cases i <;> interval_cases m <;>
          norm_num [wgt, Finset.sum_range_one])
      (by norm_num [wgt, Finset.sum_range_one])⟩

/-- Counterexample for C3 as stated: on the 2-site chain with unit coupling
and all spins `+1`, `compute_delta_h` returns `−2` while the claimed
formula `2·s[k]·Σ s[neighbours[k][j]]·couplings[k][j]` gives `+2`. -/
theorem compute_delta_h_sign_counterexample :
    compute_delta_h 0 (fun _ => (1:ℚ)) (fun _ => 1) (fun _ => 1) 1
      ≠ spec_delta_h 0 (fun _ => (1:ℚ)) (fun _ => 1) (fun _ => 1) 1 := by
  norm_num [compute_delta_h, spec_delta_h, Finset.sum_range_one]

/-- C3 (amended).  `compute_delta_h` returns
`−2 · s[k] · Σ_{j<deg[k]} s[neighbours[k][j]] · couplings[k][j]` — the
negative of the formula written in the claim — and this value equals the
energy change `compute_energy(flip(s,k)) − compute_energy(s)` of the
energy function of the code when flipping `s[k]`. -/
theorem compute_delta_h_formula (s : ℕ → ℚ) (neighbours : ℕ → ℕ → ℕ)
    (couplings : ℕ → ℕ → ℚ) (len_neighbours : ℕ → ℕ) (n k : ℕ)
    (hk : k < n)
    (hrangek : ∀ j, j < len_neighbours k → neighbours k j < n)
    (hsym : ∀ i, i < n → ∀ m, m < n →
      wgt neighbours couplings len_neighbours i m
        = wgt neighbours couplings len_neighbours m i)
    (hself : wgt neighbours couplings len_neighbours k k = 0) :
    compute_delta_h k s (neighbours k) (couplings k) (len_neighbours k)
      = -(spec_delta_h k s (neighbours k) (couplings k) (len_neighbours k))
    ∧ compute_energy (flipSpin s k) neighbours couplings len_neighbours n
        - compute_energy s neighbours couplings len_neighbours n
      = compute_delta_h k s (neighbours k) (couplings k) (len_neighbours k) := by
  constructor
  · unfold compute_delta_h spec_delta_h
    rw [← Finset.mul_sum]
    ring
  · exact energy_flip_sub_energy s neighbours couplings len_neighbours n k
      hk hrangek hsym hself

/-- Witness for C3 (amended): same 2-site instance, all spins `+1`;
`compute_delta_h = −2 = −spec_delta_h` and the energy change is `−2`. -/
theorem compute_delta_h_formula_checked :
    (0 < 2) ∧
    (compute_delta_h 0 (fun _ => (1:ℚ)) ((fun (i : ℕ) (_ : ℕ) => 1 - i) 0)
        ((fun _ _ => (1:ℚ)) 0) ((fun _ => 1) 0)
      = -(spec_delta_h 0 (fun _ => (1:ℚ)) ((fun (i : ℕ) (_ : ℕ) => 1 - i) 0)
          ((fun _ _ => (1:ℚ)) 0) ((fun _ => 1) 0))
    ∧ compute_energy (flipSpin (fun _ => (1:ℚ)) 0)
          (fun i _ => 1 - i) (fun _ _ => (1:ℚ)) (fun _ => 1) 2
        - compute_energy (fun _ => (1:ℚ)) (fun i _ => 1 - i)
            (fun _ _ => (1:ℚ)) (fun _ => 1) 2
      = compute_delta_h 0 (fun _ => (1:ℚ)) ((fun (i : ℕ) (_ : ℕ) => 1 - i) 0)
          ((fun _ _ => (1:ℚ)) 0) ((fun _ => 1) 0)) :=
  ⟨by decide,
    compute_delta_h_formula (fun _ => (1:ℚ)) (fun i _ => 1 - i) (fun _ _ => (1:ℚ))
      (fun _ => 1) 2 0 (by decide) (by decide)
      (by
        intro i hi m hm
        interval_cases i <;> interval_cases m <;>
          norm_num [wgt, Finset.sum_range_one])
      (by norm_num [wgt, Finset.sum_range_one])⟩

/-- Embedding of `compute_boltz_prob` (utils.py, lines 301-313): the
log-Boltzmann probability `−beta · eng` (the `num_spin` argument is unused
by the source as well). -/
def compute_boltz_prob (eng : ℚ) (beta : ℚ) (num_spin : ℕ) : ℚ :=
  -beta * eng

/-- Mutable state of the local single-spin-flip driver
(montecarlo.py, `single_spin_flip`): current configuration, cached energy
and accepted counter. -/
structure SSFState where
  sample : ℕ → ℚ
  eng : ℚ
  accepted : ℕ

/-- One flip attempt of `single_spin_flip` (montecarlo.py, lines 84-96).
The drawn site `k` and the uniform draw `u` are inputs; `qexp` abstracts
`np.exp`.  On acceptance the configuration is flipped in place, the cached
energy is incremented by `deltah` and the counter advances; otherwise the
state is returned unchanged. -/
def singleSpinFlipAttempt (qexp : ℚ → ℚ) (beta : ℚ) (neighbours : ℕ → ℕ → ℕ)
    (couplings : ℕ → ℕ → ℚ) (len_neighbours : ℕ → ℕ) (st : SSFState)
    (k : ℕ) (u : ℚ) : SSFState :=
  let deltah := compute_delta_h k st.sample (neighbours k) (couplings k)
    (len_neighbours k)
  if deltah < 0 ∨ u < qexp (-(beta * deltah)) then
    { sample := Function.update st.sample k (-(st.sample k)),
      eng := st.eng + deltah,
      accepted := st.accepted + 1 }
  else st

/-- C2.  In the local driver every attempt, at a drawn site `k < spins`,
computes `ΔH = compute_delta_h(k, s, …)` and accepts exactly when
`ΔH < 0` or `u < exp(−β·ΔH)`; on acceptance `s[k]` is flipped, the cached
energy becomes `E + ΔH` (no recomputation) and the accepted counter is
incremented; on rejection the state is unchanged. -/
theorem single_spin_flip_attempt_behaviour (qexp : ℚ → ℚ) (beta : ℚ)
    (neighbours : ℕ → ℕ → ℕ) (couplings : ℕ → ℕ → ℚ) (len_neighbours : ℕ → ℕ)
    (st : SSFState) (spins k : ℕ) (u : ℚ) (hk : k < spins) :
    ((compute_delta_h k st.sample (neighbours k) (couplings k) (len_neighbours k) < 0
        ∨ u < qexp (-(beta * compute_delta_h k st.sample (neighbours k)
            (couplings k) (len_neighbours k)))) →
      singleSpinFlipAttempt qexp beta neighbours couplings len_neighbours st k u
        = { sample := flipSpin st.sample k,
            eng := st.eng + compute_delta_h k st.sample (neighbours k)
              (couplings k) (len_neighbours k),
            accepted := st.accepted + 1 })
    ∧ (¬(compute_delta_h k st.sample (neighbours k) (couplings k) (len_neighbours k) < 0
        ∨ u < qexp (-(beta * compute_delta_h k st.sample (neighbours k)
            (couplings k) (len_neighbours k)))) →
      singleSpinFlipAttempt qexp beta neighbours couplings len_neighbours st k u = st) := by
  constructor
  · intro h
    simp only [singleSpinFlipAttempt, if_pos h, flipSpin]
  · intro h
    simp only [singleSpinFlipAttempt, if_neg h]

/-- Witness for C2: one site, unit self-coupling row, all spins `+1`;
`ΔH = −2 < 0`, so the attempt is accepted and flips spin 0. -/
theorem single_spin_flip_attempt_behaviour_checked :
    (0 < 1)
    ∧ (compute_delta_h 0 (fun _ => (1:ℚ)) ((fun (_ : ℕ) (_ : ℕ) => 0) 0)
        ((fun _ _ => (1:ℚ)) 0) ((fun _ => 1) 0) < 0
      ∨ (1/2 : ℚ) < (fun x => x) (-(1 * compute_delta_h 0 (fun _ => (1:ℚ))
          ((fun (_ : ℕ) (_ : ℕ) => 0) 0) ((fun _ _ => (1:ℚ)) 0) ((fun _ => 1) 0))))
    ∧ singleSpinFlipAttempt (fun x => x) 1 (fun _ _ => 0) (fun _ _ => (1:ℚ))
        (fun _ => 1) ⟨fun _ => 1, 1, 0⟩ 0 (1/2)
      = { sample := flipSpin (fun _ => (1:ℚ)) 0,
          eng := 1 + compute_delta_h 0 (fun _ => (1:ℚ)) ((fun (_ : ℕ) (_ : ℕ) => 0) 0)
            ((fun _ _ => (1:ℚ)) 0) ((fun _ => 1) 0),
          accepted := 0 + 1 } :=
  ⟨by decide,
    by norm_num [compute_delta_h, Finset.sum_range_one],
    (single_spin_flip_attempt_behaviour (fun x => x) 1 (fun _ _ => 0)
        (fun _ _ => (1:ℚ)) (fun _ => 1) ⟨fun _ => 1, 1, 0⟩ 1 0 (1/2) (by decide)).1
      (by norm_num [compute_delta_h, Finset.sum_range_one])⟩

/-- The initialisation scan of `neural_mcmc` (montecarlo.py, lines 174-177),
with an explicit fuel bound standing for the number of executed loop
iterations:

  accepted_log_prob = np.nan
  while not np.isfinite(accepted_log_prob):
      accepted_sample, accepted_log_prob = proposals[0], log_probs[0]

Each iteration of the source loop reads index 0 again; the index never
advances.  `none` is returned when the loop is still running after `fuel`
iterations. -/
def initLoopFuel (proposals : ℕ → (ℕ → ℚ)) (log_probs : ℕ → Option ℚ) :
    ℕ → Option ((ℕ → ℚ) × ℚ)
  | 0 => none
  | fuel + 1 =>
    match log_probs 0 with
    | some v => some (proposals 0, v)
    | none => initLoopFuel proposals log_probs fuel

/-- C4 fails on the code: with `log_probs[0]` non-finite and
`log_probs[1]` finite, the initialisation loop of `neural_mcmc` never
terminates — it re-reads index 0 forever — whereas the claim says it
terminates and selects proposal 1. -/
theorem neural_init_never_advances :
    (∀ fuel, initLoopFuel (fun _ _ => (1:ℚ))
        (fun i => if i = 0 then none else some 0) fuel = none)
    ∧ (fun i => if i = 0 then (none : Option ℚ) else some 0) 1 = some 0 := by
  constructor
  · intro fuel
    induction fuel with
    | zero => rfl
    | succ m ih => simpa [initLoopFuel] using ih
  · rfl

/-- Loop-bound bookkeeping of `neural_mcmc`: line 162 rescales
`steps = steps * save_every` and line 199 iterates over
`range(steps - save_every)`. -/
def neuralLoopIndices (steps save_every : ℕ) : List ℕ :=
  List.range (steps * save_every - save_every)

/-- Counterexample for C6 as stated: with `steps = 1`, `save_every = 2`
the main loop of `neural_mcmc` runs over `range(1·2 − 2)` — no iteration
at all — while the claim says it runs over `idx = 0 … 1·2 − 2`,
i.e. `range(1·2 − 1) = [0]`. -/
theorem neural_loop_bound_counterexample :
    neuralLoopIndices 1 2 ≠ List.range (1 * 2 - 1) := by
  decide

/-- C6 (amended).  For `steps ≥ 1` and `save_every ≥ 1`, the main loop of
the neural driver iterates over `idx = 0 … steps·save_every − save_every − 1`,
hence examines exactly the proposals at indices
`1 … steps·save_every − save_every` (it agrees with the claim only when
`save_every = 1`). -/
theorem neural_loop_examined_proposals (steps save_every : ℕ)
    (hs : 1 ≤ steps) (hse : 1 ≤ save_every) :
    neuralLoopIndices steps save_every
        = List.range (steps * save_every - save_every)
    ∧ (neuralLoopIndices steps save_every).map (fun i => i + 1)
        = List.range' 1 (steps * save_every - save_every) := by
  refine ⟨rfl, ?_⟩
  unfold neuralLoopIndices
  rw [List.range'_eq_map_range]
  refine List.map_congr_left ?_
  intro i _
  omega

/-- Witness for C6 (amended) at `steps = 2`, `save_every = 3`: the loop
runs over `range 3` and examines proposals 1, 2, 3. -/
theorem neural_loop_examined_proposals_checked :
    ((1:ℕ) ≤ 2 ∧ (1:ℕ) ≤ 3)
    ∧ (neuralLoopIndices 2 3 = List.range (2 * 3 - 3)
      ∧ (neuralLoopIndices 2 3).map (fun i => i + 1) = List.range' 1 (2 * 3 - 3)) :=
  ⟨by decide, neural_loop_examined_proposals 2 3 (by decide) (by decide)⟩

/-- Runtime errors a driver loop can raise; `indexError` models a Python
`IndexError` on list subscripting. -/
inductive MCErr where
  | indexError

/-- Chain state of `neural_mcmc` (montecarlo.py, lines 174-249): the
accepted quadruple, the growing `samples`, `energies`, `log_prob_ratio`
and `transition_prob` lists and the accepted counter. -/
structure NeuralState where
  accepted_sample : ℕ → ℚ
  accepted_log_prob : ℚ
  accepted_eng : ℚ
  accepted_boltz_log_prob : ℚ
  samples : List (ℕ → ℚ)
  energies : List ℚ
  log_prob_ratio : List ℚ
  transition_prob : List ℚ
  accepted : ℕ

/-- One iteration of the main loop of `neural_mcmc`
(montecarlo.py, lines 200-250).  The proposal stream supplies
`proposals[idx+1]` and `log_probs[idx+1]` (`none` = non-finite);
`lus idx` is `np.log(np.random.random_sample())`.  A non-finite trial log
probability skips the iteration (`continue`).  After appending to
`log_prob_ratio` and `transition_prob` the source subscripts both lists at
position `idx`; when earlier iterations were skipped the lists are shorter
than `idx + 1` and the subscript raises an `IndexError`, modelled by
`Except.error`.  (`np.isfinite` checks on exact rationals computed from
finite inputs are identically true and elided.) -/
def neuralStep (beta : ℚ) (neighbours : ℕ → ℕ → ℕ) (couplings : ℕ → ℕ → ℚ)
    (len_neighbours : ℕ → ℕ) (n : ℕ) (proposals : ℕ → (ℕ → ℚ))
    (log_probs : ℕ → Option ℚ) (lus : ℕ → ℚ) (idx : ℕ) (st : NeuralState) :
    Except MCErr NeuralState :=
  match log_probs (idx + 1) with
  | none => .ok st
  | some trial_log_prob =>
    let trial_sample := proposals (idx + 1)
    let trial_eng := compute_energy trial_sample neighbours couplings len_neighbours n
    let trial_boltz_log_prob := compute_boltz_prob trial_eng beta (n * n)
    let ratios := st.log_prob_ratio
      ++ [st.accepted_log_prob - trial_log_prob
          + trial_boltz_log_prob - st.accepted_boltz_log_prob]
    match ratios.get? idx with
    | none => .error .indexError
    | some r =>
      let transitions := st.transition_prob ++ [min 0 r]
      match transitions.get? idx with
      | none => .error .indexError
      | some t =>
        let st' :=
          if t ≥ 0 ∨ lus idx < t then
            { st with
              accepted_eng := trial_eng,
              accepted_log_prob := trial_log_prob,
              accepted_sample := trial_sample,
              accepted_boltz_log_prob := trial_boltz_log_prob,
              accepted := st.accepted + 1,
              log_prob_ratio := ratios,
              transition_prob := transitions }
          else
            { st with log_prob_ratio := ratios, transition_prob := transitions }
        .ok { st' with
          samples := st'.samples ++ [st'.accepted_sample],
          energies := st'.energies ++ [st'.accepted_eng] }

/-- The main loop of `neural_mcmc`, aborted by the first raised error. -/
def neuralRunAux (beta : ℚ) (neighbours : ℕ → ℕ → ℕ) (couplings : ℕ → ℕ → ℚ)
    (len_neighbours : ℕ → ℕ) (n : ℕ) (proposals : ℕ → (ℕ → ℚ))
    (log_probs : ℕ → Option ℚ) (lus : ℕ → ℚ) :
    List ℕ → NeuralState → Except MCErr NeuralState
  | [], st => .ok st
  | idx :: rest, st =>
    match neuralStep beta neighbours couplings len_neighbours n proposals
        log_probs lus idx st with
    | .error e => .error e
    | .ok st' => neuralRunAux beta neighbours couplings len_neighbours n proposals
        log_probs lus rest st'

/-- The whole `neural_mcmc` loop: initial state from the first proposal
(the source reaches it only when `log_probs[0]` is finite), iteration over
`range(steps·save_every − save_every)`. -/
def neuralRun (beta : ℚ) (neighbours : ℕ → ℕ → ℕ) (couplings : ℕ → ℕ → ℚ)
    (len_neighbours : ℕ → ℕ) (n : ℕ) (proposals : ℕ → (ℕ → ℚ))
    (log_probs : ℕ → Option ℚ) (lus : ℕ → ℚ) (lnq0 : ℚ)
    (steps save_every : ℕ) : Except MCErr NeuralState :=
  neuralRunAux beta neighbours couplings len_neighbours n proposals log_probs lus
    (neuralLoopIndices steps save_every)
    { accepted_sample := proposals 0,
      accepted_log_prob := lnq0,
      accepted_eng := compute_energy (proposals 0) neighbours couplings
        len_neighbours n,
      accepted_boltz_log_prob := compute_boltz_prob
        (compute_energy (proposals 0) neighbours couplings len_neighbours n)
        beta (n * n),
      samples := [],
      energies := [],
      log_prob_ratio := [],
      transition_prob := [],
      accepted := 0 }

/-- C5 fails on the code: on a 1-spin lattice with an empty couplings row,
`β = 1`, `steps = 3`, `save_every = 1`, and a proposal stream whose entry 1
has non-finite `lnq` while entries 0 and 2 are finite, iteration `idx = 0`
is skipped, and iteration `idx = 1` appends its ratio as element 0 of
`log_prob_ratio` and then subscripts `log_prob_ratio[1]` — an
`IndexError`.  The driver does not continue to process the remaining
proposals as the claim states. -/
theorem neural_skip_then_index_error :
    neuralRun 1 (fun _ _ => 0) (fun _ _ => 0) (fun _ => 0) 1 (fun _ _ => 1)
        (fun i => if i = 1 then none else some 0) (fun _ => -1) 0 3 1
      = .error .indexError := by
  rfl

/-- The log acceptance ratio computed by `hybrid_mcmc`
(montecarlo.py, lines 430-462).  When the trial and accepted samples
differ by exactly one ±1 spin (`np.sum(np.abs(trial − accepted)) == 2`)
the full mixed-kernel ratio with the two
`log(prob_single/spins + (1−prob_single)·exp(lnq))` terms is used,
otherwise the pure independent-proposal ratio. -/
def hybrid_log_prob_ratio (qexp qlog : ℚ → ℚ) (spins : ℕ) (prob_single : ℚ)
    (trial_sample accepted_sample : ℕ → ℚ)
    (trial_boltz_log_prob accepted_boltz_log_prob
      accepted_log_prob trial_log_prob : ℚ) : ℚ :=
  if (∑ i ∈ Finset.range spins, |trial_sample i - accepted_sample i|) = 2 then
    trial_boltz_log_prob - accepted_boltz_log_prob
      + qlog (prob_single / (spins : ℚ) + (1 - prob_single) * qexp accepted_log_prob)
      - qlog (prob_single / (spins : ℚ) + (1 - prob_single) * qexp trial_log_prob)
  else
    trial_boltz_log_prob - accepted_boltz_log_prob
      + accepted_log_prob - trial_log_prob

/-- Hamming distance between two configurations on the first `n` sites. -/
def hammingDist (n : ℕ) (a b : ℕ → ℚ) : ℕ :=
  ((Finset.range n).filter (fun i => a i ≠ b i)).card

/-- For ±1 configurations, `Σ_{i<n} |a i − b i| = 2 · hammingDist`. -/
lemma abs_sum_eq_two_hamming (n : ℕ) (a b : ℕ → ℚ)
    (ha : ∀ i, i < n → a i = 1 ∨ a i = -1)
    (hb : ∀ i, i < n → b i = 1 ∨ b i = -1) :
    (∑ i ∈ Finset.range n, |a i - b i|) = 2 * (hammingDist n a b : ℚ) := by
  unfold hammingDist
  calc ∑ i ∈ Finset.range n, |a i - b i|
      = ∑ i ∈ Finset.range n, (if a i ≠ b i then (2:ℚ) else 0) := by
        refine Finset.sum_congr rfl ?_
        intro i hi
        rw [Finset.mem_range] at hi
        rcases ha i hi with h1 | h1 <;> rcases hb i hi with h2 | h2 <;>
          rw [h1, h2] <;> norm_num
    _ = ∑ i ∈ (Finset.range n).filter (fun i => a i ≠ b i), (2:ℚ) :=
        (Finset.sum_filter _ _).symm
    _ = 2 * (((Finset.range n).filter (fun i => a i ≠ b i)).card : ℚ) := by
        rw [Finset.sum_const, nsmul_eq_mul]
        ring

/-- C7.  In the hybrid-stochastic driver, on every iteration that reaches
the acceptance test with ±1 configurations: if the trial configuration
differs from the accepted one in exactly one spin, the log acceptance
ratio is `trial_lnπ − accepted_lnπ + ln(p/N + (1−p)·exp(accepted_lnq))
− ln(p/N + (1−p)·exp(trial_lnq))`; otherwise it is
`trial_lnπ − accepted_lnπ + accepted_lnq − trial_lnq`. -/
theorem hybrid_log_ratio_cases (qexp qlog : ℚ → ℚ) (spins : ℕ) (prob_single : ℚ)
    (trial_sample accepted_sample : ℕ → ℚ)
    (tb ab alp tlp : ℚ)
    (ht : ∀ i, i < spins → trial_sample i = 1 ∨ trial_sample i = -1)
    (ha : ∀ i, i < spins → accepted_sample i = 1 ∨ accepted_sample i = -1) :
    hybrid_log_prob_ratio qexp qlog spins prob_single trial_sample accepted_sample
        tb ab alp tlp
      = if hammingDist spins trial_sample accepted_sample = 1 then
          tb - ab
            + qlog (prob_single / (spins : ℚ) + (1 - prob_single) * qexp alp)
            - qlog (prob_single / (spins : ℚ) + (1 - prob_single) * qexp tlp)
        else tb - ab + alp - tlp := by
  unfold hybrid_log_prob_ratio
  refine if_congr ?_ rfl rfl
  rw [abs_sum_eq_two_hamming spins trial_sample accepted_sample ht ha]
  constructor
  · intro h
    have hc : (hammingDist spins trial_sample accepted_sample : ℚ) = 1 := by linarith
    exact_mod_cast hc
  · intro h
    rw [h]
    norm_num

/-- Witness for C7: two sites, trial differing from accepted at site 0
only; the Hamming-1 branch applies. -/
theorem hybrid_log_ratio_cases_checked :
    hybrid_log_prob_ratio (fun x => x) (fun x => x) 2 (1/2)
        (fun i => if i = 0 then -1 else 1) (fun _ => 1) 0 0 0 0
      = if hammingDist 2 (fun i => if i = 0 then (-1:ℚ) else 1) (fun _ => 1) = 1 then
          0 - 0 + (fun x => x) ((1/2) / ((2:ℕ) : ℚ) + (1 - 1/2) * (fun x => x) 0)
            - (fun x => x) ((1/2) / ((2:ℕ) : ℚ) + (1 - 1/2) * (fun x => x) 0)
        else 0 - 0 + 0 - 0 :=
  hybrid_log_ratio_cases (fun x => x) (fun x => x) 2 (1/2)
    (fun i => if i = 0 then -1 else 1) (fun _ => 1) 0 0 0 0
    (by intro i hi; interval_cases i <;> norm_num)
    (by intro i hi; interval_cases i <;> norm_num)

/-- Chain state of `hybrid_mcmc` (montecarlo.py, lines 336-365): accepted
quadruple, output lists, and all counters.  The counters `accepted` and
`accepted_neural` start at 1 (lines 349-351), `steps_neural` starts at 1
(line 364). -/
structure HybridState where
  accepted_sample : ℕ → ℚ
  accepted_log_prob : ℚ
  accepted_eng : ℚ
  accepted_boltz_log_prob : ℚ
  samples : List (ℕ → ℚ)
  energies : List ℚ
  log_prob_ratio : List ℚ
  transition_prob : List ℚ
  accepted : ℕ
  accepted_single : ℕ
  accepted_neural : ℕ
  type_accepted_neural : Bool
  neural_after_single : ℕ
  steps_neural : ℕ
  steps_single : ℕ

/-- Common tail of one `hybrid_mcmc` iteration
(montecarlo.py, lines 430-493): compute the log acceptance ratio, append
it, subscript the just-grown lists at `step` (a Python `IndexError` when
earlier iterations were skipped), test acceptance, update state and
counters, then append the accepted sample and energy. -/
def hybridTail (qexp qlog : ℚ → ℚ) (prob_single : ℚ) (spins : ℕ) (lus : ℕ → ℚ)
    (neural : Bool) (trial_sample : ℕ → ℚ) (trial_log_prob trial_eng
      trial_boltz_log_prob : ℚ) (step : ℕ) (st : HybridState) :
    Except MCErr HybridState :=
  let ratio := hybrid_log_prob_ratio qexp qlog spins prob_single trial_sample
    st.accepted_sample trial_boltz_log_prob st.accepted_boltz_log_prob
    st.accepted_log_prob trial_log_prob
  let ratios := st.log_prob_ratio ++ [ratio]
  match ratios.get? step with
  | none => .error .indexError
  | some r =>
    let transitions := st.transition_prob ++ [min 0 r]
    match transitions.get? step with
    | none => .error .indexError
    | some t =>
      let st' :=
        if t ≥ 0 ∨ lus step < t then
          { st with
            accepted_eng := trial_eng,
            accepted_log_prob := trial_log_prob,
            accepted_sample := trial_sample,
            accepted_boltz_log_prob := trial_boltz_log_prob,
            neural_after_single :=
              if st.type_accepted_neural = false ∧ neural = true then
                st.neural_after_single + 1
              else st.neural_after_single,
            type_accepted_neural := neural,
            accepted_neural :=
              if neural then st.accepted_neural + 1 else st.accepted_neural,
            accepted_single :=
              if neural then st.accepted_single else st.accepted_single + 1,
            accepted := st.accepted + 1,
            log_prob_ratio := ratios,
            transition_prob := transitions }
        else
          { st with log_prob_ratio := ratios, transition_prob := transitions }
      .ok { st' with
        samples := st'.samples ++ [st'.accepted_sample],
        energies := st'.energies ++ [st'.accepted_eng] }

/-- One iteration of the `hybrid_mcmc` loop (montecarlo.py, lines 368-507).
`us step` is the branch draw `np.random.uniform()`; with probability
`1 − prob_single` the next neural proposal (cursor `steps_neural`) is used,
otherwise a single-spin-flip trial at the drawn site `ks step` whose log
density is evaluated through the model oracle `model_fwd` on the
`(s+1)/2` conversion.  Skips (`continue`) keep the state, except that the
local path has already incremented `steps_single` when its oracle check
fails. -/
def hybridStep (qexp qlog : ℚ → ℚ) (beta prob_single : ℚ)
    (neighbours : ℕ → ℕ → ℕ) (couplings : ℕ → ℕ → ℚ) (len_neighbours : ℕ → ℕ)
    (n spins : ℕ) (proposals : ℕ → (ℕ → ℚ)) (log_probs : ℕ → Option ℚ)
    (model_fwd : (ℕ → ℚ) → Option ℚ) (us : ℕ → ℚ) (ks : ℕ → ℕ) (lus : ℕ → ℚ)
    (step : ℕ) (st : HybridState) : Except MCErr HybridState :=
  if us step ≤ 1 - prob_single then
    match log_probs st.steps_neural with
    | none => .ok st
    | some trial_log_prob =>
      let trial_sample := proposals st.steps_neural
      let trial_eng := compute_energy trial_sample neighbours couplings
        len_neighbours n
      let trial_boltz_log_prob := compute_boltz_prob trial_eng beta spins
      hybridTail qexp qlog prob_single spins lus true trial_sample trial_log_prob
        trial_eng trial_boltz_log_prob step
        { st with steps_neural := st.steps_neural + 1 }
  else
    let k := ks step
    let trial_sample := Function.update st.accepted_sample k
      (-(st.accepted_sample k))
    let deltah := compute_delta_h k st.accepted_sample (neighbours k)
      (couplings k) (len_neighbours k)
    let trial_eng := st.accepted_eng + deltah
    match model_fwd (fun i => (trial_sample i + 1) / 2) with
    | none => .ok { st with steps_single := st.steps_single + 1 }
    | some trial_log_prob =>
      let trial_boltz_log_prob := compute_boltz_prob trial_eng beta spins
      hybridTail qexp qlog prob_single spins lus false trial_sample trial_log_prob
        trial_eng trial_boltz_log_prob step
        { st with steps_single := st.steps_single + 1 }

/-- Safety bound of `hybrid_mcmc` (montecarlo.py, line 316). -/
def HYBRID_MAX_STEPS : ℕ := 10 ^ 7

/-- Indices executed by the `hybrid_mcmc` loop: `range(steps·save_every − 1)`
(lines 318 and 367), truncated by the `step > MAX_STEPS` break executed at
the end of an iteration body (lines 505-507). -/
def hybridLoopIndices (steps save_every : ℕ) : List ℕ :=
  List.range (min (steps * save_every - 1) (HYBRID_MAX_STEPS + 2))

/-- The `hybrid_mcmc` loop, aborted by the first raised error. -/
def hybridRunAux (qexp qlog : ℚ → ℚ) (beta prob_single : ℚ)
    (neighbours : ℕ → ℕ → ℕ) (couplings : ℕ → ℕ → ℚ) (len_neighbours : ℕ → ℕ)
    (n spins : ℕ) (proposals : ℕ → (ℕ → ℚ)) (log_probs : ℕ → Option ℚ)
    (model_fwd : (ℕ → ℚ) → Option ℚ) (us : ℕ → ℚ) (ks : ℕ → ℕ) (lus : ℕ → ℚ) :
    List ℕ → HybridState → Except MCErr HybridState
  | [], st => .ok st
  | step :: rest, st =>
    match hybridStep qexp qlog beta prob_single neighbours couplings
        len_neighbours n spins proposals log_probs model_fwd us ks lus step st with
    | .error e => .error e
    | .ok st' => hybridRunAux qexp qlog beta prob_single neighbours couplings
        len_neighbours n spins proposals log_probs model_fwd us ks lus rest st'

/-- Initial chain state of `hybrid_mcmc` (montecarlo.py, lines 336-365):
counters `accepted = 1`, `accepted_neural = 1`, `accepted_single = 0`,
`steps_neural = 1`, first finite proposal as accepted sample. -/
def hybridInitState (beta : ℚ) (neighbours : ℕ → ℕ → ℕ) (couplings : ℕ → ℕ → ℚ)
    (len_neighbours : ℕ → ℕ) (n spins : ℕ) (proposals : ℕ → (ℕ → ℚ))
    (lnq0 : ℚ) : HybridState :=
  { accepted_sample := proposals 0,
    accepted_log_prob := lnq0,
    accepted_eng := compute_energy (proposals 0) neighbours couplings
      len_neighbours n,
    accepted_boltz_log_prob := compute_boltz_prob
      (compute_energy (proposals 0) neighbours couplings len_neighbours n)
      beta spins,
    samples := [],
    energies := [],
    log_prob_ratio := [],
    transition_prob := [],
    accepted := 1,
    accepted_single := 0,
    accepted_neural := 1,
    type_accepted_neural := true,
    neural_after_single := 0,
    steps_neural := 1,
    steps_single := 0 }

/-- The whole `hybrid_mcmc` loop from its initial state. -/
def hybridRun (qexp qlog : ℚ → ℚ) (beta prob_single : ℚ)
    (neighbours : ℕ → ℕ → ℕ) (couplings : ℕ → ℕ → ℚ) (len_neighbours : ℕ → ℕ)
    (n spins : ℕ) (proposals : ℕ → (ℕ → ℚ)) (log_probs : ℕ → Option ℚ)
    (model_fwd : (ℕ → ℚ) → Option ℚ) (us : ℕ → ℚ) (ks : ℕ → ℕ) (lus : ℕ → ℚ)
    (lnq0 : ℚ) (steps save_every : ℕ) : Except MCErr HybridState :=
  hybridRunAux qexp qlog beta prob_single neighbours couplings len_neighbours
    n spins proposals log_probs model_fwd us ks lus
    (hybridLoopIndices steps save_every)
    (hybridInitState beta neighbours couplings len_neighbours n spins
      proposals lnq0)

/-- Acceptance rate returned by `hybrid_mcmc` (montecarlo.py, line 536):
`accepted / steps * 100` with `steps` already rescaled by `save_every`. -/
def hybridRate (accepted steps save_every : ℕ) : ℚ :=
  (accepted : ℚ) / ((steps : ℚ) * (save_every : ℚ)) * 100

/-- Counter invariant of the hybrid loop: total accepted equals
single-accepted plus neural-accepted, and the neural counter never drops
below its initial value 1. -/
def hybridCounterInv (st : HybridState) : Prop :=
  st.accepted = st.accepted_single + st.accepted_neural ∧ 1 ≤ st.accepted_neural

lemma hybridTail_inv (qexp qlog : ℚ → ℚ) (prob_single : ℚ) (spins : ℕ)
    (lus : ℕ → ℚ) (neural : Bool) (trial_sample : ℕ → ℚ)
    (tlp te tb : ℚ) (step : ℕ) (st st' : HybridState)
    (h : hybridTail qexp qlog prob_single spins lus neural trial_sample
      tlp te tb step st = .ok st')
    (hinv : hybridCounterInv st) : hybridCounterInv st' := by
  simp only [hybridTail] at h
  split at h
  · exact absurd h (by simp)
  · split at h
    · exact absurd h (by simp)
    · rw [Except.ok.injEq] at h
      subst h
      unfold hybridCounterInv at hinv ⊢
      split
      · cases neural <;> simp <;> omega
      · simpa using hinv

lemma hybridStep_inv (qexp qlog : ℚ → ℚ) (beta prob_single : ℚ)
    (neighbours : ℕ → ℕ → ℕ) (couplings : ℕ → ℕ → ℚ) (len_neighbours : ℕ → ℕ)
    (n spins : ℕ) (proposals : ℕ → (ℕ → ℚ)) (log_probs : ℕ → Option ℚ)
    (model_fwd : (ℕ → ℚ) → Option ℚ) (us : ℕ → ℚ) (ks : ℕ → ℕ) (lus : ℕ → ℚ)
    (step : ℕ) (st st' : HybridState)
    (h : hybridStep qexp qlog beta prob_single neighbours couplings
      len_neighbours n spins proposals log_probs model_fwd us ks lus step st
      = .ok st')
    (hinv : hybridCounterInv st) : hybridCounterInv st' := by
  simp only [hybridStep] at h
  split at h
  · split at h
    · rw [Except.ok.injEq] at h
      subst h
      exact hinv
    · exact hybridTail_inv _ _ _ _ _ _ _ _ _ _ _ _ _ h hinv
  · split at h
    · rw [Except.ok.injEq] at h
      subst h
      exact hinv
    · exact hybridTail_inv _ _ _ _ _ _ _ _ _ _ _ _ _ h hinv

lemma hybridRunAux_inv (qexp qlog : ℚ → ℚ) (beta prob_single : ℚ)
    (neighbours : ℕ → ℕ → ℕ) (couplings : ℕ → ℕ → ℚ) (len_neighbours : ℕ → ℕ)
    (n spins : ℕ) (proposals : ℕ → (ℕ → ℚ)) (log_probs : ℕ → Option ℚ)
    (model_fwd : (ℕ → ℚ) → Option ℚ) (us : ℕ → ℚ) (ks : ℕ → ℕ) (lus : ℕ → ℚ) :
    ∀ (l : List ℕ) (st st' : HybridState),
      hybridRunAux qexp qlog beta prob_single neighbours couplings
        len_neighbours n spins proposals log_probs model_fwd us ks lus l st
        = .ok st' →
      hybridCounterInv st → hybridCounterInv st'
  | [], st, st', h, hinv => by
    simp only [hybridRunAux, Except.ok.injEq] at h
    subst h
    exact hinv
  | step :: rest, st, st', h, hinv => by
    simp only [hybridRunAux] at h
    split at h
    · exact absurd h (by simp)
    · rename_i st₁ hstep
      exact hybridRunAux_inv qexp qlog beta prob_single neighbours couplings
        len_neighbours n spins proposals log_probs model_fwd us ks lus rest st₁
        st' h
        (hybridStep_inv qexp qlog beta prob_single neighbours couplings
          len_neighbours n spins proposals log_probs model_fwd us ks lus _ st st₁
          hstep hinv)

/-- C9.  In the hybrid-stochastic driver the total-accepted and
neural-accepted counters start at 1 (see `hybridInitState`), so whenever
the run returns, the final counters satisfy
`accepted = accepted_single + accepted_neural` with `accepted_neural ≥ 1`,
and the returned acceptance rate equals
`(1 + number of accepted proposals) / (steps·save_every) · 100`
(accepted proposals being `accepted_single + (accepted_neural − 1)`),
which is strictly positive even when every proposal was rejected. -/
theorem hybrid_rate_counts_initial_acceptance (qexp qlog : ℚ → ℚ)
    (beta prob_single : ℚ) (neighbours : ℕ → ℕ → ℕ) (couplings : ℕ → ℕ → ℚ)
    (len_neighbours : ℕ → ℕ) (n spins : ℕ) (proposals : ℕ → (ℕ → ℚ))
    (log_probs : ℕ → Option ℚ) (model_fwd : (ℕ → ℚ) → Option ℚ)
    (us : ℕ → ℚ) (ks : ℕ → ℕ) (lus : ℕ → ℚ) (lnq0 : ℚ)
    (steps save_every : ℕ) (a asing aneur : ℕ)
    (h : (hybridRun qexp qlog beta prob_single neighbours couplings
        len_neighbours n spins proposals log_probs model_fwd us ks lus lnq0
        steps save_every).map
        (fun st => (st.accepted, st.accepted_single, st.accepted_neural))
      = .ok (a, asing, aneur))
    (hs : 1 ≤ steps) (hse : 1 ≤ save_every) :
    a = asing + aneur ∧ 1 ≤ aneur
    ∧ hybridRate a steps save_every
        = (1 + ((asing : ℚ) + ((aneur : ℚ) - 1)))
          / ((steps : ℚ) * (save_every : ℚ)) * 100
    ∧ 0 < hybridRate a steps save_every := by
  have hrun : ∃ stF, hybridRun qexp qlog beta prob_single neighbours couplings
      len_neighbours n spins proposals log_probs model_fwd us ks lus lnq0
      steps save_every = .ok stF
      ∧ stF.accepted = a ∧ stF.accepted_single = asing
      ∧ stF.accepted_neural = aneur := by
    cases hr : hybridRun qexp qlog beta prob_single neighbours couplings
        len_neighbours n spins proposals log_probs model_fwd us ks lus lnq0
        steps save_every with
    | error e => rw [hr] at h; exact absurd h (by simp [Except.map])
    | ok stF =>
      rw [hr] at h
      simp only [Except.map, Except.ok.injEq, Prod.mk.injEq] at h
      exact ⟨stF, rfl, h.1, h.2.1, h.2.2⟩
  obtain ⟨stF, hok, haF, hsF, hnF⟩ := hrun
  have hinvF : hybridCounterInv stF := by
    refine hybridRunAux_inv qexp qlog beta prob_single neighbours couplings
      len_neighbours n spins proposals log_probs model_fwd us ks lus
      (hybridLoopIndices steps save_every) _ stF hok ?_
    constructor <;> simp [hybridInitState]
  have hsum : a = asing + aneur := by
    rw [← haF, ← hsF, ← hnF]
    exact hinvF.1
  have hone : 1 ≤ aneur := by
    rw [← hnF]
    exact hinvF.2
  refine ⟨hsum, hone, ?_, ?_⟩
  · unfold hybridRate
    rw [hsum]
    have : ((asing + aneur : ℕ) : ℚ) = 1 + ((asing : ℚ) + ((aneur : ℚ) - 1)) := by
      push_cast
      have : (1:ℚ) ≤ (aneur : ℚ) := by exact_mod_cast hone
      ring
    rw [this]
  · unfold hybridRate
    have ha1 : 1 ≤ a := by omega
    have hnum : (0:ℚ) < (a : ℚ) := by exact_mod_cast lt_of_lt_of_le Nat.zero_lt_one ha1
    have hden : (0:ℚ) < (steps : ℚ) * (save_every : ℚ) := by
      have h1 : (0:ℚ) < (steps : ℚ) := by exact_mod_cast hs
      have h2 : (0:ℚ) < (save_every : ℚ) := by exact_mod_cast hse
      exact mul_pos h1 h2
    positivity

/-- Witness for C9: a 1-spin lattice with empty couplings row, neural
proposals only (`prob_single = 0`), all log probabilities finite and zero:
the single loop iteration accepts, giving final counters `(2, 0, 2)`. -/
theorem hybrid_rate_counts_initial_acceptance_checked :
    ((2:ℕ) = 0 + 2 ∧ (1:ℕ) ≤ 2
    ∧ hybridRate 2 2 1
        = (1 + (((0:ℕ) : ℚ) + (((2:ℕ) : ℚ) - 1)))
          / (((2:ℕ) : ℚ) * ((1:ℕ) : ℚ)) * 100
    ∧ 0 < hybridRate 2 2 1) :=
  hybrid_rate_counts_initial_acceptance (fun x => x) (fun x => x) 1 0
    (fun _ _ => 0) (fun _ _ => 0) (fun _ => 0) 1 1 (fun _ _ => 1)
    (fun _ => some 0) (fun _ => some 0) (fun _ => 0) (fun _ => 0) (fun _ => -1)
    0 2 1 2 0 2
    (by
      have hidx : hybridLoopIndices 2 1 = [0] := by
        have h1 : 2 * 1 - 1 = 1 := by norm_num
        simp only [hybridLoopIndices, HYBRID_MAX_STEPS, h1]
        norm_num [List.range_succ]
      norm_num [hybridRun, hybridRunAux, hybridStep, hybridTail, hidx,
        hybridInitState, hybrid_log_prob_ratio, compute_energy,
        compute_boltz_prob, Except.map, Finset.sum_range_one,
        Finset.sum_range_zero])
    (by decide) (by decide)

/-- Chain state of `seq_hybrid_mcmc` (montecarlo.py, lines 598-624).
`trial_log_prob` is the Python loop variable of the same name: it is only
assigned in the neural branch and keeps its value across the local
iterations in between. -/
structure SeqHybridState where
  accepted_sample : ℕ → ℚ
  accepted_log_prob : ℚ
  accepted_eng : ℚ
  accepted_boltz_log_prob : ℚ
  trial_log_prob : ℚ
  samples : List (ℕ → ℚ)
  energies : List ℚ
  accepted : ℕ
  accepted_single : ℕ
  accepted_neural : ℕ
  type_accepted_neural : Bool
  neural_after_single : ℕ
  steps_neural : ℕ
  steps_single : ℕ

/-- Acceptance and emission tail of one `seq_hybrid_mcmc` iteration
(montecarlo.py, lines 709-736).  The accept block copies the current
value of the `trial_log_prob` variable — in a local iteration that is the
value left over from the most recent neural iteration, which the state
update of the neural branch has already stored in the `trial_log_prob`
slot.  Emission happens only when `step % save_every == 0`. -/
def seqHybridTail (neural : Bool) (trial_sample : ℕ → ℚ)
    (trial_eng trial_boltz_log_prob ratio : ℚ) (lus : ℕ → ℚ)
    (save_every step : ℕ) (st : SeqHybridState) : SeqHybridState :=
  let t := min 0 ratio
  let st' :=
    if t ≥ 0 ∨ lus step < t then
      { st with
        accepted_eng := trial_eng,
        accepted_log_prob := st.trial_log_prob,
        accepted_sample := trial_sample,
        accepted_boltz_log_prob := trial_boltz_log_prob,
        neural_after_single :=
          if st.type_accepted_neural = false ∧ neural = true then
            st.neural_after_single + 1
          else st.neural_after_single,
        type_accepted_neural := neural,
        accepted_neural :=
          if neural then st.accepted_neural + 1 else st.accepted_neural,
        accepted_single :=
          if neural then st.accepted_single else st.accepted_single + 1,
        accepted := st.accepted + 1 }
    else st
  if step % save_every = 0 then
    { st' with
      samples := st'.samples ++ [st'.accepted_sample],
      energies := st'.energies ++ [st'.accepted_eng] }
  else st'

/-- One iteration of `seq_hybrid_mcmc` (montecarlo.py, lines 628-749).
The proposal type is deterministic: neural iff `step % len_seq_single == 0`.
In the neural branch the density oracle `model_fwd` is re-evaluated on the
current accepted sample (converted to `{0,1}`) and stored in
`accepted_log_prob` before the acceptance test (the source does not test
that value for finiteness — line 650 re-tests `trial_log_prob` instead —
so the oracle is modelled as a total function).  The local branch flips
one spin, updates the energy incrementally, and never consults the
oracle. -/
def seqHybridStep (beta : ℚ) (neighbours : ℕ → ℕ → ℕ) (couplings : ℕ → ℕ → ℚ)
    (len_neighbours : ℕ → ℕ) (n spins len_seq_single : ℕ)
    (proposals : ℕ → (ℕ → ℚ)) (log_probs : ℕ → Option ℚ)
    (model_fwd : (ℕ → ℚ) → ℚ) (ks : ℕ → ℕ) (lus : ℕ → ℚ)
    (save_every step : ℕ) (st : SeqHybridState) : SeqHybridState :=
  if step % len_seq_single = 0 then
    match log_probs st.steps_neural with
    | none => st
    | some tlp =>
      let trial_sample := proposals st.steps_neural
      let alp := model_fwd (fun i => (st.accepted_sample i + 1) / 2)
      let trial_eng := compute_energy trial_sample neighbours couplings
        len_neighbours n
      let trial_boltz_log_prob := compute_boltz_prob trial_eng beta spins
      let ratio := trial_boltz_log_prob - st.accepted_boltz_log_prob + alp - tlp
      seqHybridTail true trial_sample trial_eng trial_boltz_log_prob ratio lus
        save_every step
        { st with
          accepted_log_prob := alp,
          trial_log_prob := tlp,
          steps_neural := st.steps_neural + 1 }
  else
    let k := ks step
    let trial_sample := Function.update st.accepted_sample k
      (-(st.accepted_sample k))
    let deltah := compute_delta_h k st.accepted_sample (neighbours k)
      (couplings k) (len_neighbours k)
    let trial_eng := st.accepted_eng + deltah
    let trial_boltz_log_prob := compute_boltz_prob trial_eng beta spins
    let ratio := trial_boltz_log_prob - st.accepted_boltz_log_prob
    seqHybridTail false trial_sample trial_eng trial_boltz_log_prob ratio lus
      save_every step
      { st with steps_single := st.steps_single + 1 }

lemma seqHybridTail_log_prob_update (neural : Bool) (ts : ℕ → ℚ)
    (te tb r : ℚ) (lus : ℕ → ℚ) (save_every step : ℕ) (st : SeqHybridState) :
    (seqHybridTail neural ts te tb r lus save_every step st).trial_log_prob
      = st.trial_log_prob
    ∧ ((seqHybridTail neural ts te tb r lus save_every step st).accepted
        = st.accepted + 1 →
      (seqHybridTail neural ts te tb r lus save_every step st).accepted_log_prob
        = st.trial_log_prob)
    ∧ ((seqHybridTail neural ts te tb r lus save_every step st).accepted
        = st.accepted →
      (seqHybridTail neural ts te tb r lus save_every step st).accepted_log_prob
        = st.accepted_log_prob) := by
  simp only [seqHybridTail]
  split_ifs <;> (try dsimp only) <;>
    refine ⟨rfl, ?_, ?_⟩ <;> intro h <;>
    first
      | rfl
      | exact absurd h (by omega)

/-- C10.  In the sequential hybrid driver a local iteration
(`step % len_seq_single ≠ 0`) never evaluates the density oracle — the
step result is the same for any two oracles `f`, `g` — it leaves the
`trial_log_prob` slot unchanged, and when it is accepted (the accepted
counter advances) the cached `accepted_log_prob` is overwritten with the
`trial_log_prob` left over from the most recent neural iteration; when it
is rejected, `accepted_log_prob` is unchanged. -/
theorem seq_hybrid_local_step_oracle_free (beta : ℚ) (neighbours : ℕ → ℕ → ℕ)
    (couplings : ℕ → ℕ → ℚ) (len_neighbours : ℕ → ℕ)
    (n spins len_seq_single : ℕ) (proposals : ℕ → (ℕ → ℚ))
    (log_probs : ℕ → Option ℚ) (f g : (ℕ → ℚ) → ℚ) (ks : ℕ → ℕ) (lus : ℕ → ℚ)
    (save_every step : ℕ) (st : SeqHybridState)
    (hlocal : ¬ step % len_seq_single = 0) :
    seqHybridStep beta neighbours couplings len_neighbours n spins
        len_seq_single proposals log_probs f ks lus save_every step st
      = seqHybridStep beta neighbours couplings len_neighbours n spins
        len_seq_single proposals log_probs g ks lus save_every step st
    ∧ (seqHybridStep beta neighbours couplings len_neighbours n spins
        len_seq_single proposals log_probs f ks lus save_every step st).trial_log_prob
      = st.trial_log_prob
    ∧ ((seqHybridStep beta neighbours couplings len_neighbours n spins
          len_seq_single proposals log_probs f ks lus save_every step st).accepted
        = st.accepted + 1 →
      (seqHybridStep beta neighbours couplings len_neighbours n spins
          len_seq_single proposals log_probs f ks lus save_every step st).accepted_log_prob
        = st.trial_log_prob)
    ∧ ((seqHybridStep beta neighbours couplings len_neighbours n spins
          len_seq_single proposals log_probs f ks lus save_every step st).accepted
        = st.accepted →
      (seqHybridStep beta neighbours couplings len_neighbours n spins
          len_seq_single proposals log_probs f ks lus save_every step st).accepted_log_prob
        = st.accepted_log_prob) := by
  have hbranch : ∀ h : (ℕ → ℚ) → ℚ,
      seqHybridStep beta neighbours couplings len_neighbours n spins
        len_seq_single proposals log_probs h ks lus save_every step st
      = seqHybridTail false
          (Function.update st.accepted_sample (ks step)
            (-(st.accepted_sample (ks step))))
          (st.accepted_eng + compute_delta_h (ks step) st.accepted_sample
            (neighbours (ks step)) (couplings (ks step))
            (len_neighbours (ks step)))
          (compute_boltz_prob (st.accepted_eng + compute_delta_h (ks step)
            st.accepted_sample (neighbours (ks step)) (couplings (ks step))
            (len_neighbours (ks step))) beta spins)
          (compute_boltz_prob (st.accepted_eng + compute_delta_h (ks step)
            st.accepted_sample (neighbours (ks step)) (couplings (ks step))
            (len_neighbours (ks step))) beta spins
            - st.accepted_boltz_log_prob)
          lus save_every step
          { st with steps_single := st.steps_single + 1 } := by
    intro h
    simp only [seqHybridStep, if_neg hlocal]
  refine ⟨by rw [hbranch f, hbranch g], ?_, ?_, ?_⟩ <;> rw [hbranch f]
  · exact (seqHybridTail_log_prob_update _ _ _ _ _ _ _ _ _).1
  · exact (seqHybridTail_log_prob_update _ _ _ _ _ _ _ _ _).2.1
  · exact (seqHybridTail_log_prob_update _ _ _ _ _ _ _ _ _).2.2

/-- Witness for C10: a local iteration (`step = 1`, `len_seq_single = 2`)
with two different density oracles (constant 5 and constant 7) on a
1-spin lattice. -/
theorem seq_hybrid_local_step_oracle_free_checked :
    seqHybridStep 1 (fun _ _ => 0) (fun _ _ => 0) (fun _ => 0) 1 1 2
        (fun _ _ => 1) (fun _ => some 0) (fun _ => 5) (fun _ => 0) (fun _ => -1)
        1 1 ⟨fun _ => 1, 0, 0, 0, 3, [], [], 1, 0, 1, true, 0, 1, 0⟩
      = seqHybridStep 1 (fun _ _ => 0) (fun _ _ => 0) (fun _ => 0) 1 1 2
        (fun _ _ => 1) (fun _ => some 0) (fun _ => 7) (fun _ => 0) (fun _ => -1)
        1 1 ⟨fun _ => 1, 0, 0, 0, 3, [], [], 1, 0, 1, true, 0, 1, 0⟩
    ∧ (seqHybridStep 1 (fun _ _ => 0) (fun _ _ => 0) (fun _ => 0) 1 1 2
        (fun _ _ => 1) (fun _ => some 0) (fun _ => 5) (fun _ => 0) (fun _ => -1)
        1 1 ⟨fun _ => 1, 0, 0, 0, 3, [], [], 1, 0, 1, true, 0, 1, 0⟩).trial_log_prob
      = (3:ℚ)
    ∧ ((seqHybridStep 1 (fun _ _ => 0) (fun _ _ => 0) (fun _ => 0) 1 1 2
        (fun _ _ => 1) (fun _ => some 0) (fun _ => 5) (fun _ => 0) (fun _ => -1)
        1 1 ⟨fun _ => 1, 0, 0, 0, 3, [], [], 1, 0, 1, true, 0, 1, 0⟩).accepted
        = 1 + 1 →
      (seqHybridStep 1 (fun _ _ => 0) (fun _ _ => 0) (fun _ => 0) 1 1 2
        (fun _ _ => 1) (fun _ => some 0) (fun _ => 5) (fun _ => 0) (fun _ => -1)
        1 1 ⟨fun _ => 1, 0, 0, 0, 3, [], [], 1, 0, 1, true, 0, 1, 0⟩).accepted_log_prob
        = (3:ℚ))
    ∧ ((seqHybridStep 1 (fun _ _ => 0) (fun _ _ => 0) (fun _ => 0) 1 1 2
        (fun _ _ => 1) (fun _ => some 0) (fun _ => 5) (fun _ => 0) (fun _ => -1)
        1 1 ⟨fun _ => 1, 0, 0, 0, 3, [], [], 1, 0, 1, true, 0, 1, 0⟩).accepted
        = 1 →
      (seqHybridStep 1 (fun _ _ => 0) (fun _ _ => 0) (fun _ => 0) 1 1 2
        (fun _ _ => 1) (fun _ => some 0) (fun _ => 5) (fun _ => 0) (fun _ => -1)
        1 1 ⟨fun _ => 1, 0, 0, 0, 3, [], [], 1, 0, 1, true, 0, 1, 0⟩).accepted_log_prob
        = (0:ℚ)) :=
  seq_hybrid_local_step_oracle_free 1 (fun _ _ => 0) (fun _ _ => 0) (fun _ => 0)
    1 1 2 (fun _ _ => 1) (fun _ => some 0) (fun _ => 5) (fun _ => 7) (fun _ => 0)
    (fun _ => -1) 1 1 ⟨fun _ => 1, 0, 0, 0, 3, [], [], 1, 0, 1, true, 0, 1, 0⟩
    (by decide)

/-- State of the two coupled chains of `exchange_rbm`
(montecarlo.py, lines 919-933): the ±1 configuration and energy of the
local chain, the {0,1} configuration and energy of the RBM chain, and the
swap counter. -/
structure ExchangeState where
  sample_single : ℕ → ℚ
  sample_rbm : ℕ → ℚ
  eng_single : ℚ
  eng_rbm : ℚ
  swap : ℕ

/-- The swap log-ratio computed by `exchange_rbm`
(montecarlo.py, lines 976-988):
`boltz_log_prob_single − boltz_log_prob_rbm + free_energy((s_single+1)/2)
− free_energy(s_rbm)`, with `boltz_log_prob_* = −β·eng_*`.
`free_energy` abstracts the `_free_energy` method of the RBM (out of scope). -/
def exchange_log_swap_ratio (beta : ℚ) (free_energy : (ℕ → ℚ) → ℚ)
    (spins : ℕ) (st : ExchangeState) : ℚ :=
  compute_boltz_prob st.eng_single beta spins
    - compute_boltz_prob st.eng_rbm beta spins
    + free_energy (fun i => (st.sample_single i + 1) / 2)
    - free_energy st.sample_rbm

/-- The swap log-ratio the specification asks for:
`(lnπ_A(s_B) − lnπ_A(s_A)) + (F(s_A) − F(s_B))` with
`lnπ_A(s) = −β·energy(s)` and `F(s) = −free_energy(s)`. -/
def spec_swap_log_ratio (beta : ℚ) (free_energy : (ℕ → ℚ) → ℚ)
    (spins : ℕ) (st : ExchangeState) : ℚ :=
  (compute_boltz_prob st.eng_rbm beta spins
      - compute_boltz_prob st.eng_single beta spins)
    + ((-(free_energy (fun i => (st.sample_single i + 1) / 2)))
      - (-(free_energy st.sample_rbm)))

/-- The swap proposal of `exchange_rbm` (montecarlo.py, lines 990-1003):
accept when `min(0, lnα) ≥ 0` or `ln U < min(0, lnα)`; on acceptance the
two configurations are exchanged with the `±1 ↔ {0,1}` conversions and
the two energies are exchanged, and the swap counter advances. -/
def exchangeSwapStep (beta : ℚ) (free_energy : (ℕ → ℚ) → ℚ) (spins : ℕ)
    (lu : ℚ) (st : ExchangeState) : ExchangeState :=
  let log_prob_swap := min 0 (exchange_log_swap_ratio beta free_energy spins st)
  if log_prob_swap ≥ 0 ∨ lu < log_prob_swap then
    { st with
      sample_rbm := fun i => (st.sample_single i + 1) / 2,
      sample_single := fun i => st.sample_rbm i * 2 - 1,
      eng_rbm := st.eng_single,
      eng_single := st.eng_rbm,
      swap := st.swap + 1 }
  else st

/-- Counterexample for C8 as stated: with `β = 1`, zero free energies,
`E_single = 0` and `E_rbm = 1`, the code computes swap log-ratio `+1`
while the claimed formula gives `−1`. -/
theorem exchange_swap_sign_counterexample :
    exchange_log_swap_ratio 1 (fun _ => 0) 1 ⟨fun _ => 1, fun _ => 1, 0, 1, 0⟩
      ≠ spec_swap_log_ratio 1 (fun _ => 0) 1 ⟨fun _ => 1, fun _ => 1, 0, 1, 0⟩ := by
  norm_num [exchange_log_swap_ratio, spec_swap_log_ratio, compute_boltz_prob]

/-- C8 (amended).  After warm-up, the swap log-ratio computed each step by
the exchange driver equals `(lnπ_A(s_A) − lnπ_A(s_B)) + (free_energy(s_A)
− free_energy(s_B))` — the negative of the claimed formula; the swap is
accepted exactly when `min(0, lnα) ≥ 0` or `ln U < min(0, lnα)` (the
log-space form of accepting with probability `min(1, exp(lnα))`), and on
acceptance the two configurations (converted between ±1 and {0,1}
conventions) and their energies are exchanged. -/
theorem exchange_swap_behaviour (beta : ℚ) (free_energy : (ℕ → ℚ) → ℚ)
    (spins : ℕ) (lu : ℚ) (st : ExchangeState) :
    exchange_log_swap_ratio beta free_energy spins st
      = -(spec_swap_log_ratio beta free_energy spins st)
    ∧ ((min 0 (exchange_log_swap_ratio beta free_energy spins st) ≥ 0
        ∨ lu < min 0 (exchange_log_swap_ratio beta free_energy spins st)) →
      exchangeSwapStep beta free_energy spins lu st
        = { st with
            sample_rbm := fun i => (st.sample_single i + 1) / 2,
            sample_single := fun i => st.sample_rbm i * 2 - 1,
            eng_rbm := st.eng_single,
            eng_single := st.eng_rbm,
            swap := st.swap + 1 })
    ∧ (¬(min 0 (exchange_log_swap_ratio beta free_energy spins st) ≥ 0
        ∨ lu < min 0 (exchange_log_swap_ratio beta free_energy spins st)) →
      exchangeSwapStep beta free_energy spins lu st = st) := by
  refine ⟨?_, ?_, ?_⟩
  · unfold exchange_log_swap_ratio spec_swap_log_ratio
    ring
  · intro h
    simp only [exchangeSwapStep, if_pos h]
  · intro h
    simp only [exchangeSwapStep, if_neg h]

/-- Witness for C8 (amended): the same concrete instance as the
counterexample; its swap log-ratio is `+1`, so `min(0, lnα) = 0 ≥ 0` and
the swap is accepted, exchanging samples and energies. -/
theorem exchange_swap_behaviour_checked :
    (exchange_log_swap_ratio 1 (fun _ => 0) 1 ⟨fun _ => 1, fun _ => 1, 0, 1, 0⟩
      = -(spec_swap_log_ratio 1 (fun _ => 0) 1 ⟨fun _ => 1, fun _ => 1, 0, 1, 0⟩))
    ∧ exchangeSwapStep 1 (fun _ => 0) 1 (-1) ⟨fun _ => 1, fun _ => 1, 0, 1, 0⟩
      = { sample_single := fun i => (fun _ => (1:ℚ)) i * 2 - 1,
          sample_rbm := fun i => ((fun _ => (1:ℚ)) i + 1) / 2,
          eng_single := 1,
          eng_rbm := 0,
          swap := 0 + 1 } :=
  ⟨(exchange_swap_behaviour 1 (fun _ => 0) 1 (-1)
      ⟨fun _ => 1, fun _ => 1, 0, 1, 0⟩).1,
    (exchange_swap_behaviour 1 (fun _ => 0) 1 (-1)
        ⟨fun _ => 1, fun _ => 1, 0, 1, 0⟩).2.1
      (by
        left
        norm_num [exchange_log_swap_ratio, compute_boltz_prob])⟩

end NeuralMCMC
